import Mathlib

/-!
Verification development for the padlock repository (blues/padlock), a
K-of-N threshold one-time-pad archival codec written in Go.

Bytes are modelled as natural numbers (with explicit `% 256` / `% 2^32`
reductions where the Go code relies on fixed-width arithmetic), byte
strings as `List Nat`, and fallible Go functions as `Except`/`Option`
valued Lean functions.  Each definition is a shallow embedding of the
correspondingly named Go function; definitions marked "Modelled from the
spec" embed components whose Go source is not part of the repository
snapshot (only their tests and callers are) and follow the natural
language specification instead.
-/

namespace Padlock

/-- Byte-classification helper: ASCII decimal digit, mirroring the Go
comparisons `name[i] >= '0' && name[i] <= '9'`. -/
def isDigitB (b : Nat) : Bool := 48 ≤ b && b ≤ 57

/-- Byte-classification helper: ASCII letter of either case, mirroring the
Go comparisons on `letterChar` in `IsCollectionName`. -/
def isLetterB (b : Nat) : Bool := (65 ≤ b && b ≤ 90) || (97 ≤ b && b ≤ 122)

/-! ## IsCollectionName (src/pkg/file/collection.go, lines 283-320)

The Go function scans the leading run of ASCII digits, remembering the
index of the **last** digit of that run in `firstDigitIndex`, requires a
letter immediately after the run, and then requires every remaining
character to be a digit (possibly none).  `name.get? d` returning `none`
corresponds to the Go bounds check `firstDigitIndex+1 >= len(name)`. -/

/-- Shallow embedding of `IsCollectionName` from
src/pkg/file/collection.go.  The length of the leading digit run plays
the role of `firstDigitIndex + 1`. -/
def IsCollectionName (name : List Nat) : Bool :=
  if name.length < 3 then false
  else if (name.takeWhile isDigitB).length = 0 then false
  else
    match name.get? (name.takeWhile isDigitB).length with
    | none => false
    | some c =>
      if isLetterB c then
        (name.drop ((name.takeWhile isDigitB).length + 1)).all isDigitB
      else false

/-- Matcher for the tail of the spec's collection-label pattern after the
first (digit) character: zero or more further digits, then exactly one
letter, then ONE OR MORE digits and end of input.  Together with
`labelRegexMatch` this is a direct executable reading of the regular
expression `(\d+)([A-Za-z])(\d+)` anchored at both ends, as written in
the specification. -/
def regexTailStrict : List Nat → Bool
  | [] => false
  | b :: t =>
    if isDigitB b then regexTailStrict t
    else isLetterB b && !t.isEmpty && t.all isDigitB

/-- Executable reading of the spec's anchored pattern
`(\d+)([A-Za-z])(\d+)`: one or more digits, one letter, one or more
digits. -/
def labelRegexMatch : List Nat → Bool
  | [] => false
  | b :: t => isDigitB b && regexTailStrict t

/-- Matcher for the tail of the AMENDED pattern: zero or more further
digits, then exactly one letter, then ZERO or more digits and end of
input. -/
def regexTailRelaxed : List Nat → Bool
  | [] => false
  | b :: t =>
    if isDigitB b then regexTailRelaxed t
    else isLetterB b && t.all isDigitB

/-- Executable reading of the amended anchored pattern
`(\d+)([A-Za-z])(\d*)`: one or more digits, one letter, zero or more
digits. -/
def labelRelaxedMatch : List Nat → Bool
  | [] => false
  | b :: t => isDigitB b && regexTailRelaxed t

/-- ASCII bytes of the string 12A, the smallest-style name accepted by the
code but rejected by the spec's pattern (it has no trailing digit). -/
def name12A : List Nat := [49, 50, 65]

/-! ## Pad parameter validation (pkg/pad, Go source absent from the
snapshot; modelled from the spec) -/

/-- Decimal ASCII rendering of a natural number below 100; sufficient for
the scheme parameters, which are at most 26. -/
def natDec2 (x : Nat) : List Nat :=
  if x < 10 then [48 + x] else [48 + x / 10, 48 + x % 10]

/-- Modelled from the spec: the collection label canonically
`<K><letter><N>` where the letter is the 1-based Roman index
(A = 1 ... Z = 26); `pkg/pad`'s Go source is absent from the snapshot. -/
def collectionLabel (k n i : Nat) : List Nat :=
  natDec2 k ++ [64 + i] ++ natDec2 n

/-- Modelled from the spec: the `Pad` value returned by `NewPadForEncode`,
carrying the scheme parameters and the list of collection labels;
`pkg/pad`'s Go source is absent from the snapshot. -/
structure Pad where
  totalCopies : Nat
  requiredCopies : Nat
  collections : List (List Nat)
  deriving Repr, DecidableEq

/-- Modelled from the spec: `make_encoder(N, K) -> Pad | ErrParams` where
`ErrParams` covers `N<2`, `N>26`, `K<2`, `K>N`; on success the pad lists
one collection label per copy.  `pkg/pad`'s Go source is absent from the
snapshot (only its tests are). -/
def NewPadForEncode (n k : Nat) : Except (List Nat) Pad :=
  if n < 2 ∨ 26 < n ∨ k < 2 ∨ n < k then
    .error [69, 114, 114, 80, 97, 114, 97, 109, 115]
  else
    .ok ⟨n, k, (List.range' 1 n).map (collectionLabel k n)⟩

/-! ## DecompressStreamToStream (src/unnamed/part_004, lines 652-697)

The Go function peeks two bytes with `io.ReadFull`.  `io.EOF` (empty
stream) and `io.ErrUnexpectedEOF` (one byte) both return the peeked bytes
unchanged.  Otherwise the peeked bytes are glued back via
`io.MultiReader`, and gzip is selected exactly when the two bytes are
`0x1f 0x8b`; the reader handed to gzip is the glued-back full stream.
Real I/O failures of the underlying reader are impossible for a pure byte
list. -/

/-- Result of the decompression dispatch: either the stream is passed
through unchanged or the (entire, re-glued) stream is handed to the gzip
reader. -/
inductive StreamChoice
  | passthrough (bytes : List Nat)
  | gzipStream (bytes : List Nat)
  deriving Repr, DecidableEq

/-- Shallow embedding of `DecompressStreamToStream` from
src/unnamed/part_004: the empty stream and one-byte streams are passed
through as-is; otherwise gzip is chosen exactly on the magic bytes
`0x1f 0x8b`, with the gzip reader receiving the full original stream. -/
def DecompressStreamToStream (input : List Nat) : StreamChoice :=
  match input with
  | [] => .passthrough []
  | [b] => .passthrough [b]
  | b0 :: b1 :: rest =>
    if b0 = 0x1f ∧ b1 = 0x8b then .gzipStream (b0 :: b1 :: rest)
    else .passthrough (b0 :: b1 :: rest)

/-! ## FindCollections ordering (src/pkg/file/collection.go, lines 242-248)

After gathering collection directories and TAR files, `FindCollections`
sorts the gathered list with
`sort.Slice(collections, func(i, j int) bool { return collections[i].Name < collections[j].Name })`.
`sort.Slice`'s contract is that the result is a permutation of the input
that is sorted with respect to the comparator (it is not stable); we model
it with insertion sort over the same comparator, which satisfies exactly
that contract. -/

/-- Go's built-in string comparison `<`: bytewise lexicographic with a
proper prefix ordered first. -/
def goStrLt : List Nat → List Nat → Bool
  | [], [] => false
  | [], _ :: _ => true
  | _ :: _, [] => false
  | a :: x, b :: y => if a < b then true else if b < a then false else goStrLt x y

/-- A collection as gathered by `FindCollections`: name, filesystem path
and format tag (cf. the `Collection` struct in src/pkg/file). -/
structure Collection where
  name : List Nat
  path : List Nat
  format : Nat
  deriving Repr, DecidableEq

/-- Ordering induced on collections by the `sort.Slice` comparator: `a`
may precede `b` exactly when `b.Name < a.Name` is false, i.e. when
`a.Name` is at most `b.Name` in Go's string order. -/
def collLe (a b : Collection) : Prop := goStrLt b.name a.name = false

instance : DecidableRel collLe := fun a b =>
  inferInstanceAs (Decidable (goStrLt b.name a.name = false))

/-- Asymmetry of Go string comparison. -/
theorem goStrLt_asymm : ∀ x y : List Nat, goStrLt x y = true → goStrLt y x = false := by
  intro x
  induction x with
  | nil => intro y h; cases y <;> simp [goStrLt] at h ⊢
  | cons a x ih =>
    intro y h
    cases y with
    | nil => simp [goStrLt] at h
    | cons b y =>
      simp only [goStrLt] at h ⊢
      split_ifs at h ⊢ with h1 h2 h3 h4
      all_goals first
        | rfl
        | omega
        | (exact ih y h)
        | (exact absurd h (by simp))

/-- Linearity-style helper for transitivity: if `z < x` then for any `y`
either `z < y` or `y < x`. -/
theorem goStrLt_split : ∀ x y z : List Nat, goStrLt z x = true →
    goStrLt z y = true ∨ goStrLt y x = true := by
  intro x
  induction x with
  | nil => intro y z h; cases z <;> simp [goStrLt] at h
  | cons a x ih =>
    intro y z h
    cases z with
    | nil =>
      cases y with
      | nil => exact Or.inr h
      | cons b y => exact Or.inl (by simp [goStrLt])
    | cons c z =>
      cases y with
      | nil => exact Or.inr (by simp [goStrLt])
      | cons b y =>
        simp only [goStrLt] at h ⊢
        by_cases hcb : c < b
        · exact Or.inl (by simp [hcb])
        · by_cases hbc : b < c
          · refine Or.inr ?_
            split_ifs at h with h1 h2
            all_goals simp [show b < a by omega]
          · have hcb' : c = b := by omega
            subst hcb'
            split_ifs at h with h1 h2
            · exact Or.inr (by simp [h1])
            · rcases ih y z h with hl | hr
              · exact Or.inl (by simp [hl])
              · exact Or.inr (by simp [h1, h2, hr])

instance : IsTotal Collection collLe := by
  constructor
  intro a b
  unfold collLe
  by_cases h : goStrLt b.name a.name = true
  · exact Or.inr (goStrLt_asymm _ _ h)
  · exact Or.inl (by simpa using h)

instance : IsTrans Collection collLe := by
  constructor
  intro a b c hab hbc
  unfold collLe at hab hbc ⊢
  by_cases h : goStrLt c.name a.name = true
  · rcases goStrLt_split a.name b.name c.name h with hl | hr
    · rw [hbc] at hl; exact absurd hl (by simp)
    · rw [hab] at hr; exact absurd hr (by simp)
  · simpa using h

/-- Model of the sorting step of `FindCollections` (collection.go lines
242-248): the gathered collections are sorted by the Go comparator. -/
def findCollectionsSort (gathered : List Collection) : List Collection :=
  List.insertionSort collLe gathered

/-! ## SerializeDirectoryToStream (src/unnamed/part_002, lines 474-564)

The goroutine walks the input directory with `filepath.Walk` and, for
each visited object, skips the input directory itself (`path ==
inputDir`), skips symlinks, and otherwise writes one tar header whose
`Name` is `filepath.Rel(inputDir, path)`, followed (for regular files) by
the file's contents.  We model the walk as the list of visited objects in
walk order and the produced archive as the list of emitted tar entries;
`filepath.Rel` for a path strictly below the base directory strips the
base plus the separator. -/

/-- ASCII path separator. -/
def sepByte : Nat := 47

/-- A filesystem object as visited by `filepath.Walk`, in walk order. -/
structure WalkEntry where
  path : List Nat
  isDir : Bool
  isSymlink : Bool
  deriving Repr, DecidableEq

/-- A tar entry header as emitted by `SerializeDirectoryToStream`. -/
structure TarEntry where
  name : List Nat
  isDir : Bool
  deriving Repr, DecidableEq

/-- Model of `filepath.Rel(base, path)` for the paths seen during the
walk: defined when `path` lies strictly below `base`, in which case it
strips the base directory and the separator. -/
def goRel (base path : List Nat) : Option (List Nat) :=
  if (base ++ [sepByte]).isPrefixOf path then some (path.drop (base.length + 1))
  else none

/-- Shallow embedding of the walk callback of `SerializeDirectoryToStream`
from src/unnamed/part_002: the input directory itself and symlinks
produce nothing; every other object produces one tar entry named by its
path relative to the input directory.  A `filepath.Rel` failure aborts the
walk with an error (`none`). -/
def SerializeDirectoryToStream (inputDir : List Nat) (walk : List WalkEntry) :
    Option (List TarEntry) :=
  match walk with
  | [] => some []
  | e :: rest =>
    if e.path = inputDir then SerializeDirectoryToStream inputDir rest
    else if e.isSymlink then SerializeDirectoryToStream inputDir rest
    else
      match goRel inputDir e.path with
      | none => none
      | some rel =>
        (SerializeDirectoryToStream inputDir rest).map (fun l => ⟨rel, e.isDir⟩ :: l)

/-- Specification-side description of the tar stream (from the spec's
words): one entry for each file and directory under the input directory,
named by its path relative to the input directory; symlinks are skipped
and the input directory itself is not included. -/
def specTarEntries (inputDir : List Nat) (walk : List WalkEntry) : List TarEntry :=
  (walk.filter (fun e => !e.isSymlink && !(e.path == inputDir))).map
    (fun e => ⟨e.path.drop (inputDir.length + 1), e.isDir⟩)

/-! ## EncodeDirectory dry-run effects (src/pkg/file/collection_test.go,
package padlock, lines 553-931)

`EncodeDirectory` interleaves pure bookkeeping with filesystem-mutating
calls.  We record the mutating calls as an effect trace, following the
code's branch structure exactly: output-directory preparation is gated on
`!cfg.SizeOnly`; collection creation happens only in the non-dry-run
directory modes; the post-encode TAR finalisation / archiving chain is
headed by an `if cfg.SizeOnly` arm that skips it entirely; the PNG
verification pass requires `!cfg.SizeOnly`.  The chunk-writer factory
`newChunkFunc` hands out a `SizeTrackingWriter` whenever `cfg.SizeOnly`
is set, before any collection lookup or file writer is considered. -/

/-- The kinds of chunk writer `newChunkFunc` can hand to the encoder. -/
inductive ChunkWriterKind
  | sizeTracking
  | tarChunk (tarPath : List Nat)
  | namedChunk (collPath : List Nat)
  deriving Repr, DecidableEq

/-- Filesystem-mutating operations performed by `EncodeDirectory`. -/
inductive EncodeEffect
  | prepareOutputDirectory (dir : List Nat)
  | createCollections (outputDir : List Nat)
  | finalizeAllTarWriters
  | removeCollectionDirs
  | tarDirectoryContents (path : List Nat)
  | tarCollections
  | verifyCollections
  deriving Repr, DecidableEq

/-- Configuration of an encode run (the effect-relevant fields of the Go
`EncodeConfig`). -/
structure EncodeConfig where
  inputDir : List Nat
  outputDir : List Nat
  outputDirs : List (List Nat)
  n : Nat
  k : Nat
  formatPNG : Bool
  chunkSize : Nat
  clearIfNotEmpty : Bool
  archiveCollections : Bool
  sizeOnly : Bool
  deriving Repr, DecidableEq

/-- ASCII bytes of the filename suffix .tar. -/
def tarSuffix : List Nat := [46, 116, 97, 114]

/-- Shallow embedding of the chunk-writer factory `newChunkFunc` defined
inside `EncodeDirectory`: in size-only mode it always returns a
`SizeTrackingWriter`; otherwise it looks up the collection by name and
returns a TAR chunk writer (archive mode) or a named chunk writer
(files mode). -/
def newChunkFunc (cfg : EncodeConfig) (collections : List Collection)
    (collectionName : List Nat) : Except (List Nat) ChunkWriterKind :=
  if cfg.sizeOnly then .ok .sizeTracking
  else
    match collections.find? (fun c => c.name == collectionName) with
    | none => .error collectionName
    | some c =>
      if cfg.archiveCollections then
        if cfg.outputDirs.length > 1 then
          .ok (.tarChunk (c.path ++ [sepByte] ++ collectionName ++ tarSuffix))
        else if tarSuffix.isSuffixOf c.path then .ok (.tarChunk c.path)
        else .ok (.tarChunk (c.path ++ tarSuffix))
      else .ok (.namedChunk c.path)

/-- Shallow embedding of the filesystem-mutating call sequence of
`EncodeDirectory`, following the Go branch structure: directory
preparation, collection creation, the post-encode TAR
finalisation/archiving chain, and the PNG verification pass. -/
def encodeDirectoryEffects (cfg : EncodeConfig) (collections : List Collection) :
    List EncodeEffect :=
  (if cfg.sizeOnly then []
   else if cfg.outputDirs.length > 1 then
     cfg.outputDirs.map EncodeEffect.prepareOutputDirectory
   else [EncodeEffect.prepareOutputDirectory cfg.outputDir])
  ++ (if cfg.sizeOnly then []
      else if cfg.outputDirs.length > 1 then []
      else if cfg.archiveCollections then []
      else [EncodeEffect.createCollections cfg.outputDir])
  ++ (if cfg.sizeOnly then []
      else if cfg.archiveCollections then
        EncodeEffect.finalizeAllTarWriters ::
          (if cfg.outputDirs.length ≤ 1 then [EncodeEffect.removeCollectionDirs] else [])
      else if cfg.outputDirs.length > 1 && !cfg.archiveCollections then []
      else if cfg.outputDirs.length > 1 then
        collections.map (fun c => EncodeEffect.tarDirectoryContents c.path)
      else if !cfg.archiveCollections then []
      else [EncodeEffect.tarCollections])
  ++ (if !cfg.sizeOnly && cfg.formatPNG then [EncodeEffect.verifyCollections] else [])

/-! ## PNG steganographic wrapper (src/unnamed/part_004, lines 501-602)

`encodePNGWithData` takes the stdlib `png.Encode` output for the 1x1
transparent image, splits it just before the IEND chunk (four bytes before
the first occurrence of the ASCII string IEND, i.e. at the start of the
IEND length field), and splices in a custom chunk
`[len:u32 BE][type=rAWd][payload][crc32:u32 BE]` whose CRC is the IEEE
CRC-32 over type plus payload.  `ExtractDataFromPNG` searches for the
first occurrence of `rAWd`, reads the four preceding bytes as the
big-endian length, extracts the payload, and verifies the trailing CRC.
The stdlib `png.Encode` output is treated as an arbitrary byte string
parameter (it is not code of this repository). -/

/-- ASCII bytes of the custom chunk type rAWd. -/
def rAWdType : List Nat := [114, 65, 87, 100]

/-- ASCII bytes of the chunk type IEND. -/
def iendType : List Nat := [73, 69, 78, 68]

/-- Big-endian four-byte spelling of a 32-bit value, as written by
`binary.BigEndian.PutUint32` (byte extraction truncates exactly like the
Go `uint32` conversion). -/
def be32 (x : Nat) : List Nat :=
  [x / 2 ^ 24 % 256, x / 2 ^ 16 % 256, x / 2 ^ 8 % 256, x % 256]

/-- Big-endian 32-bit read of the first four bytes of a list, as read by
`binary.BigEndian.Uint32`. -/
def readBE32 (l : List Nat) : Nat :=
  l.getD 0 0 % 256 * 2 ^ 24 + l.getD 1 0 % 256 * 2 ^ 16 +
    l.getD 2 0 % 256 * 2 ^ 8 + l.getD 3 0 % 256

/-- The reflected CRC-32 (IEEE) polynomial 0xEDB88320 used by Go's
`hash/crc32` IEEE table. -/
def crcPoly : Nat := 0xEDB88320

/-- One bit-step of the reflected CRC-32 state update. -/
def crcStep1 (s : Nat) : Nat :=
  if s % 2 = 1 then (s >>> 1) ^^^ crcPoly else s >>> 1

/-- Eight bit-steps, i.e. one processed input byte. -/
def crcStep8 (s : Nat) : Nat :=
  crcStep1 (crcStep1 (crcStep1 (crcStep1 (crcStep1 (crcStep1 (crcStep1 (crcStep1 s)))))))

/-- Byte update of the CRC-32 state: xor the byte into the low bits of
the state and run eight bit-steps. -/
def crcUpdate (s b : Nat) : Nat := crcStep8 (s ^^^ b % 256)

/-- The IEEE CRC-32 of a byte string, as computed by `crc32.NewIEEE`:
state initialised to all ones, folded over the bytes, complemented. -/
def crc32 (data : List Nat) : Nat :=
  (data.foldl crcUpdate 0xFFFFFFFF) ^^^ 0xFFFFFFFF

/-- First index at which `pat` occurs in a list, mirroring Go's
`bytes.Index` (with `none` for Go's -1). -/
def indexOfSub (pat : List Nat) : List Nat → Option Nat
  | [] => if pat.isEmpty then some 0 else none
  | b :: t =>
    if pat.isPrefixOf (b :: t) then some 0 else (indexOfSub pat t).map (· + 1)

/-- Whether `pat` occurs anywhere in a list. -/
def occursB (pat : List Nat) : List Nat → Bool
  | [] => pat.isEmpty
  | b :: t => pat.isPrefixOf (b :: t) || occursB pat t

/-- Error cases of the PNG wrapper pair.  `sliceOutOfRange` stands for a
Go slice-bounds panic; claim C10 proves it unreachable. -/
inductive PngErr
  | tooShort
  | iendNotFound
  | chunkNotFound
  | chunkOffsetLow
  | lengthOutOfRange
  | noCRC
  | crcMismatch
  | sliceOutOfRange
  deriving Repr, DecidableEq

/-- Go slice expression `l[i:j]` with its bounds panic modelled as a
checked access returning `none` exactly when Go would panic. -/
def goSlice (l : List Nat) (i j : Nat) : Option (List Nat) :=
  if i ≤ j ∧ j ≤ l.length then some ((l.drop i).take (j - i)) else none

/-- Shallow embedding of `encodePNGWithData` from src/unnamed/part_004:
given the stdlib PNG bytes for the carrier image and a payload, check the
PNG is at least 12 bytes and contains IEND at offset at least 4, then
emit prefix, length, type, payload, CRC and the IEND tail. -/
def encodePNGWithData (pngBytes data : List Nat) : Except PngErr (List Nat) :=
  if pngBytes.length < 12 then .error .tooShort
  else
    match indexOfSub iendType pngBytes with
    | none => .error .iendNotFound
    | some ipos =>
      if ipos < 4 then .error .iendNotFound
      else
        .ok (pngBytes.take (ipos - 4) ++ be32 data.length ++ rAWdType ++ data ++
          be32 (crc32 (rAWdType ++ data)) ++ pngBytes.drop (ipos - 4))

/-- Shallow embedding of `ExtractDataFromPNG` from src/unnamed/part_004:
locate the first rAWd occurrence, read the preceding four bytes as the
big-endian payload length, bounds-check and extract the payload, and
verify the trailing CRC-32 over type plus payload. -/
def ExtractDataFromPNG (all : List Nat) : Except PngErr (List Nat) :=
  match indexOfSub rAWdType all with
  | none => .error .chunkNotFound
  | some chunkPos =>
    if chunkPos < 4 then .error .chunkOffsetLow
    else
      match goSlice all (chunkPos - 4) chunkPos with
      | none => .error .sliceOutOfRange
      | some lengthBuf =>
        if all.length < chunkPos + 4 + readBE32 lengthBuf then .error .lengthOutOfRange
        else
          match goSlice all (chunkPos + 4) (chunkPos + 4 + readBE32 lengthBuf) with
          | none => .error .sliceOutOfRange
          | some extracted =>
            if all.length < chunkPos + 4 + readBE32 lengthBuf + 4 then .error .noCRC
            else
              match goSlice all (chunkPos + 4 + readBE32 lengthBuf)
                  (chunkPos + 4 + readBE32 lengthBuf + 4) with
              | none => .error .sliceOutOfRange
              | some crcBuf =>
                if crc32 (rAWdType ++ extracted) = readBE32 crcBuf then .ok extracted
                else .error .crcMismatch

/-! ### CRC-32 bit-flip sensitivity

The reflected CRC-32 bit-step is a GF(2)-linear map on 32-bit states with
trivial kernel, so processing equal suffixes preserves a nonzero state
difference and a single flipped payload bit always changes the final
checksum. -/

/-- Left-commutation for natural-number xor. -/
theorem natXor_left_comm (a b c : Nat) : a ^^^ (b ^^^ c) = b ^^^ (a ^^^ c) := by
  rw [← Nat.xor_assoc, Nat.xor_comm a b, Nat.xor_assoc]

/-- Xor of two values sharing a common xor-ed term. -/
theorem natXor_pair_cancel (a b c : Nat) : (a ^^^ c) ^^^ (b ^^^ c) = a ^^^ b := by
  rw [Nat.xor_assoc, natXor_left_comm c b c, Nat.xor_self, Nat.xor_zero]

/-- Moving a term across an xor chain. -/
theorem natXor_shuffle1 (a b p : Nat) : (a ^^^ b) ^^^ p = (a ^^^ p) ^^^ b := by
  rw [Nat.xor_assoc, Nat.xor_assoc, Nat.xor_comm b p]

/-- Shift-right by one commutes with xor. -/
theorem shiftRightOne_xor (x y : Nat) : (x ^^^ y) >>> 1 = x >>> 1 ^^^ y >>> 1 := by
  apply Nat.eq_of_testBit_eq
  intro i
  simp [Nat.testBit_shiftRight, Nat.testBit_xor]

/-- Taking a low bit-window commutes with xor. -/
theorem xor_mod_two_pow (x y n : Nat) :
    (x ^^^ y) % 2 ^ n = x % 2 ^ n ^^^ y % 2 ^ n := by
  apply Nat.eq_of_testBit_eq
  intro i
  by_cases h : i < n <;>
    simp [Nat.testBit_mod_two_pow, Nat.testBit_xor, h]

/-- Parity of an xor. -/
theorem xor_mod_two (x y : Nat) : (x ^^^ y) % 2 = x % 2 ^^^ y % 2 := by
  simpa using xor_mod_two_pow x y 1

/-- The CRC bit-step is GF(2)-linear. -/
theorem crcStep1_linear (x y : Nat) :
    crcStep1 (x ^^^ y) = crcStep1 x ^^^ crcStep1 y := by
  unfold crcStep1
  have hxy := xor_mod_two x y
  rcases Nat.mod_two_eq_zero_or_one x with hx | hx <;>
    rcases Nat.mod_two_eq_zero_or_one y with hy | hy <;>
      rw [hx, hy] at hxy <;> simp only [Nat.xor_self, Nat.zero_xor, Nat.xor_zero] at hxy
  · simp [hx, hy, hxy, shiftRightOne_xor]
  · simp only [hx, hy, hxy]
    norm_num
    rw [shiftRightOne_xor, Nat.xor_assoc]
  · simp only [hx, hy, hxy]
    norm_num
    rw [shiftRightOne_xor, natXor_shuffle1]
  · simp only [hx, hy, hxy]
    norm_num
    rw [shiftRightOne_xor, ← natXor_pair_cancel (x >>> 1) (y >>> 1) crcPoly]

/-- The CRC bit-step keeps the state below 2^32. -/
theorem crcStep1_lt {s : Nat} (h : s < 2 ^ 32) : crcStep1 s < 2 ^ 32 := by
  unfold crcStep1
  have h1 : s >>> 1 < 2 ^ 32 := by
    have : s >>> 1 ≤ s := by
      simp [Nat.shiftRight_eq_div_pow]
      omega
    omega
  split
  · exact Nat.xor_lt_two_pow h1 (by norm_num [crcPoly])
  · exact h1

/-- The kernel of the CRC bit-step on 32-bit states is trivial. -/
theorem crcStep1_eq_zero {s : Nat} (hs : s < 2 ^ 32) (h : crcStep1 s = 0) :
    s = 0 := by
  unfold crcStep1 at h
  have hdiv : s >>> 1 = s / 2 := by simp [Nat.shiftRight_eq_div_pow]
  split at h
  · have : s >>> 1 = crcPoly := by
      have := Nat.xor_eq_zero.mp h
      exact this
    rw [hdiv] at this
    have : s / 2 = 0xEDB88320 := this
    omega
  · rw [hdiv] at h
    omega

/-- The CRC bit-step is injective on 32-bit states. -/
theorem crcStep1_inj {x y : Nat} (hx : x < 2 ^ 32) (hy : y < 2 ^ 32)
    (h : crcStep1 x = crcStep1 y) : x = y := by
  have hlin : crcStep1 (x ^^^ y) = crcStep1 x ^^^ crcStep1 y := crcStep1_linear x y
  rw [h, Nat.xor_self] at hlin
  have hxy : x ^^^ y < 2 ^ 32 := Nat.xor_lt_two_pow hx hy
  have := crcStep1_eq_zero hxy hlin
  exact Nat.xor_eq_zero.mp this

/-- The CRC byte-step keeps the state below 2^32. -/
theorem crcStep8_lt {s : Nat} (h : s < 2 ^ 32) : crcStep8 s < 2 ^ 32 := by
  unfold crcStep8
  exact crcStep1_lt (crcStep1_lt (crcStep1_lt (crcStep1_lt
    (crcStep1_lt (crcStep1_lt (crcStep1_lt (crcStep1_lt h)))))))

/-- The CRC byte-step is injective on 32-bit states. -/
theorem crcStep8_inj {x y : Nat} (hx : x < 2 ^ 32) (hy : y < 2 ^ 32)
    (h : crcStep8 x = crcStep8 y) : x = y := by
  unfold crcStep8 at h
  have l1 := fun {a b : Nat} (ha : a < 2 ^ 32) (hb : b < 2 ^ 32) => @crcStep1_inj a b ha hb
  have h1 : crcStep1 x < 2 ^ 32 := crcStep1_lt hx
  have h2 : crcStep1 (crcStep1 x) < 2 ^ 32 := crcStep1_lt h1
  have h3 := crcStep1_lt h2
  have h4 := crcStep1_lt h3
  have h5 := crcStep1_lt h4
  have h6 := crcStep1_lt h5
  have h7 := crcStep1_lt h6
  have g1 : crcStep1 y < 2 ^ 32 := crcStep1_lt hy
  have g2 : crcStep1 (crcStep1 y) < 2 ^ 32 := crcStep1_lt g1
  have g3 := crcStep1_lt g2
  have g4 := crcStep1_lt g3
  have g5 := crcStep1_lt g4
  have g6 := crcStep1_lt g5
  have g7 := crcStep1_lt g6
  exact l1 hx hy (l1 h1 g1 (l1 h2 g2 (l1 h3 g3 (l1 h4 g4 (l1 h5 g5 (l1 h6 g6 (l1 h7 g7 h)))))))

/-- The CRC byte update keeps the state below 2^32. -/
theorem crcUpdate_lt {s : Nat} (b : Nat) (h : s < 2 ^ 32) :
    crcUpdate s b < 2 ^ 32 := by
  unfold crcUpdate
  exact crcStep8_lt (Nat.xor_lt_two_pow h (lt_of_lt_of_le (Nat.mod_lt _ (by norm_num)) (by norm_num)))

/-- Folding the CRC update over any byte string keeps the state below
2^32. -/
theorem crcFold_lt (l : List Nat) {s : Nat} (h : s < 2 ^ 32) :
    l.foldl crcUpdate s < 2 ^ 32 := by
  induction l generalizing s with
  | nil => simpa using h
  | cons b t ih => exact ih (crcUpdate_lt b h)

/-- Folding the CRC update over a common byte string preserves a state
difference. -/
theorem crcFold_ne (l : List Nat) {s₁ s₂ : Nat} (h1 : s₁ < 2 ^ 32)
    (h2 : s₂ < 2 ^ 32) (hne : s₁ ≠ s₂) :
    l.foldl crcUpdate s₁ ≠ l.foldl crcUpdate s₂ := by
  induction l generalizing s₁ s₂ with
  | nil => simpa using hne
  | cons b t ih =>
    simp only [List.foldl_cons]
    refine ih (crcUpdate_lt b h1) (crcUpdate_lt b h2) ?_
    intro hc
    apply hne
    unfold crcUpdate at hc
    have hx : s₁ ^^^ b % 256 < 2 ^ 32 :=
      Nat.xor_lt_two_pow h1 (lt_of_lt_of_le (Nat.mod_lt _ (by norm_num)) (by norm_num))
    have hy : s₂ ^^^ b % 256 < 2 ^ 32 :=
      Nat.xor_lt_two_pow h2 (lt_of_lt_of_le (Nat.mod_lt _ (by norm_num)) (by norm_num))
    have := crcStep8_inj hx hy hc
    have h' : (s₁ ^^^ b % 256) ^^^ b % 256 = (s₂ ^^^ b % 256) ^^^ b % 256 := by rw [this]
    simpa [Nat.xor_assoc] using h'

/-- Right-cancellation for natural-number xor. -/
theorem natXor_right_cancel {a b c : Nat} (h : a ^^^ c = b ^^^ c) : a = b := by
  have h' := congrArg (· ^^^ c) h
  simpa [Nat.xor_assoc] using h'

/-- Left-cancellation for natural-number xor. -/
theorem natXor_left_cancel {a x y : Nat} (h : a ^^^ x = a ^^^ y) : x = y := by
  have h' := congrArg (a ^^^ ·) h
  simpa [← Nat.xor_assoc] using h'

/-- Byte bound for xor updates into the CRC state. -/
theorem mod256_lt_two_pow (b : Nat) : b % 256 < 2 ^ 32 :=
  lt_of_lt_of_le (Nat.mod_lt _ (by norm_num)) (by norm_num)

/-- Flipping a single bit (position below 8) of one byte changes the
IEEE CRC-32 of the byte string. -/
theorem crc32_flip_ne (u v : List Nat) (b k : Nat) (hk : k < 8) :
    crc32 (u ++ (b ^^^ 2 ^ k) :: v) ≠ crc32 (u ++ b :: v) := by
  have hs : u.foldl crcUpdate 0xFFFFFFFF < 2 ^ 32 := crcFold_lt u (by norm_num)
  set s := u.foldl crcUpdate 0xFFFFFFFF with hsdef
  have hb : (b ^^^ 2 ^ k) % 256 = b % 256 ^^^ 2 ^ k := by
    have h256 : (256 : Nat) = 2 ^ 8 := by norm_num
    have h2 : 2 ^ k % 2 ^ 8 = 2 ^ k :=
      Nat.mod_eq_of_lt (Nat.pow_lt_pow_right (by norm_num) hk)
    rw [h256, xor_mod_two_pow, h2]
  have hupd : crcUpdate s (b ^^^ 2 ^ k) ≠ crcUpdate s b := by
    intro hc
    unfold crcUpdate at hc
    have hx : s ^^^ (b ^^^ 2 ^ k) % 256 < 2 ^ 32 :=
      Nat.xor_lt_two_pow hs (mod256_lt_two_pow _)
    have hy : s ^^^ b % 256 < 2 ^ 32 := Nat.xor_lt_two_pow hs (mod256_lt_two_pow _)
    have heq := crcStep8_inj hx hy hc
    have hbytes := natXor_left_cancel heq
    rw [hb] at hbytes
    have h2k : (2 : Nat) ^ k ≠ 0 := by positivity
    apply h2k
    have hz : b % 256 ^^^ 2 ^ k = b % 256 ^^^ 0 := by simpa using hbytes
    exact natXor_left_cancel hz
  intro h
  unfold crc32 at h
  have h' := natXor_right_cancel h
  simp only [List.foldl_append, List.foldl_cons, ← hsdef] at h'
  exact crcFold_ne v (crcUpdate_lt _ hs) (crcUpdate_lt _ hs) hupd h'

/-- The IEEE CRC-32 is below 2^32. -/
theorem crc32_lt (data : List Nat) : crc32 data < 2 ^ 32 := by
  unfold crc32
  exact Nat.xor_lt_two_pow (crcFold_lt data (by norm_num)) (by norm_num)

/-! ### Locating the embedded chunk -/

/-- Boolean matcher agreement: a byte string matches at the front exactly
when the front of the text equals it. -/
theorem isPrefixOf_eq_take :
    ∀ p l : List Nat, p.isPrefixOf l = true ↔ l.take p.length = p := by
  intro p
  induction p with
  | nil => intro l; simp [List.isPrefixOf]
  | cons a p ih =>
    intro l
    cases l with
    | nil => simp [List.isPrefixOf]
    | cons b t =>
      simp only [List.isPrefixOf, List.length_cons, List.take_succ_cons,
        Bool.and_eq_true, beq_iff_eq, List.cons.injEq, ih t]
      constructor
      · rintro ⟨h1, h2⟩; exact ⟨h1.symm, h2⟩
      · rintro ⟨h1, h2⟩; exact ⟨h1.symm, h2⟩

/-- A found index leaves room for the pattern inside the text. -/
theorem indexOfSub_bound (pat : List Nat) :
    ∀ (l : List Nat) (i : Nat), indexOfSub pat l = some i →
      i + pat.length ≤ l.length := by
  intro l
  induction l with
  | nil =>
    intro i h
    unfold indexOfSub at h
    split at h
    · simp only [Option.some.injEq] at h
      subst h
      simp_all [List.isEmpty_iff]
    · exact absurd h (by simp)
  | cons b t ih =>
    intro i h
    unfold indexOfSub at h
    split at h
    · simp only [Option.some.injEq] at h
      subst h
      have := (isPrefixOf_eq_take pat (b :: t)).mp (by assumption)
      have hl : (List.take pat.length (b :: t)).length = pat.length := by rw [this]
      simp only [List.length_take] at hl
      omega
    · cases hrec : indexOfSub pat t with
      | none => rw [hrec] at h; exact absurd h (by simp)
      | some j =>
        rw [hrec] at h
        simp at h
        subst h
        have := ih j hrec
        simp only [List.length_cons]
        omega

/-- When the pattern has no occurrence inside `A` (including windows that
run into the start of the pattern itself), its first occurrence in
`A ++ pat ++ rest` is exactly at offset `A.length`. -/
theorem indexOfSub_append (pat rest : List Nat) :
    ∀ A : List Nat, occursB pat (A ++ pat.dropLast) = false →
      indexOfSub pat (A ++ (pat ++ rest)) = some A.length := by
  intro A
  induction A with
  | nil =>
    intro h
    have hne : pat ≠ [] := by
      intro hp
      rw [hp] at h
      simp [occursB] at h
    have hpre : pat.isPrefixOf (pat ++ rest) = true := by
      rw [isPrefixOf_eq_take, List.take_append_eq_append_take]
      simp
    cases hp : pat with
    | nil => exact absurd hp hne
    | cons p0 pt =>
      subst hp
      rw [List.nil_append, List.cons_append] at *
      unfold indexOfSub
      rw [hpre]
      simp
  | cons a A ih =>
    intro h
    have hcons : occursB pat ((a :: A) ++ pat.dropLast) =
        (pat.isPrefixOf ((a :: A) ++ pat.dropLast) || occursB pat (A ++ pat.dropLast)) := by
      rfl
    rw [hcons] at h
    simp only [Bool.or_eq_false_iff] at h
    obtain ⟨hnpre, hrest⟩ := h
    have hne : pat ≠ [] := by
      intro hp
      rw [hp] at hnpre
      simp [List.isPrefixOf] at hnpre
    have hplen : 1 ≤ pat.length := by
      cases pat with
      | nil => exact absurd rfl hne
      | cons _ _ => simp
    have hnpre2 : pat.isPrefixOf ((a :: A) ++ (pat ++ rest)) = false := by
      by_contra hcon
      have hcon' : pat.isPrefixOf ((a :: A) ++ (pat ++ rest)) = true := by
        cases hv : pat.isPrefixOf ((a :: A) ++ (pat ++ rest))
        · exact absurd hv hcon
        · rfl
      have htake := (isPrefixOf_eq_take _ _).mp hcon'
      have hsplit : pat.dropLast ++ ([pat.getLast hne] ++ rest) = pat ++ rest := by
        rw [← List.append_assoc, List.dropLast_concat_getLast hne]
      have hagree : List.take pat.length ((a :: A) ++ (pat ++ rest)) =
          List.take pat.length ((a :: A) ++ pat.dropLast) := by
        rw [← hsplit, ← List.append_assoc]
        rw [List.take_append_eq_append_take, List.take_append_eq_append_take]
        have hlen : pat.length - ((a :: A) ++ pat.dropLast).length = 0 := by
          simp only [List.length_append, List.length_cons, List.length_dropLast]
          omega
        rw [hlen]
        simp
      rw [hagree] at htake
      have : pat.isPrefixOf ((a :: A) ++ pat.dropLast) = true :=
        (isPrefixOf_eq_take _ _).mpr htake
      rw [this] at hnpre
      exact absurd hnpre (by simp)
    have hstep : indexOfSub pat ((a :: A) ++ (pat ++ rest)) =
        (indexOfSub pat (A ++ (pat ++ rest))).map (· + 1) := by
      rw [List.cons_append]
      rw [indexOfSub]
      rw [List.cons_append] at hnpre2
      rw [hnpre2]
      simp
    rw [hstep, ih hrest]
    simp

/-- Length of the big-endian spelling. -/
theorem be32_length (x : Nat) : (be32 x).length = 4 := by simp [be32]

/-- Reading back a big-endian spelling of a 32-bit value. -/
theorem readBE32_be32 {n : Nat} (h : n < 2 ^ 32) : readBE32 (be32 n) = n := by
  simp only [readBE32, be32, List.getD_cons_zero, List.getD_cons_succ]
  omega

/-- Shared parsing lemma: extraction from a well-framed byte string whose
preamble contains no early rAWd occurrence finds the framed payload and
reduces to the CRC comparison. -/
theorem extract_framed (X d suffix : List Nat) (c : Nat)
    (hno : occursB rAWdType ((X ++ be32 d.length) ++ rAWdType.dropLast) = false)
    (hd : d.length < 2 ^ 32) (hc : c < 2 ^ 32) :
    ExtractDataFromPNG ((X ++ be32 d.length) ++ (rAWdType ++ (d ++ (be32 c ++ suffix)))) =
      (if crc32 (rAWdType ++ d) = c then .ok d else .error .crcMismatch) := by
  have hA : (X ++ be32 d.length).length = X.length + 4 := by
    simp [be32_length]
  have hallLen : ((X ++ be32 d.length) ++ (rAWdType ++ (d ++ (be32 c ++ suffix)))).length =
      X.length + 4 + 4 + d.length + 4 + suffix.length := by
    simp only [List.length_append, be32_length,
      show rAWdType.length = 4 from rfl]
    omega
  have hidx : indexOfSub rAWdType ((X ++ be32 d.length) ++ (rAWdType ++ (d ++ (be32 c ++ suffix)))) =
      some (X ++ be32 d.length).length :=
    indexOfSub_append rAWdType (d ++ (be32 c ++ suffix)) (X ++ be32 d.length) hno
  have h4 : ¬ (X ++ be32 d.length).length < 4 := by omega
  have e1 : goSlice ((X ++ be32 d.length) ++ (rAWdType ++ (d ++ (be32 c ++ suffix))))
      ((X ++ be32 d.length).length - 4) (X ++ be32 d.length).length = some (be32 d.length) := by
    unfold goSlice
    rw [if_pos ⟨by omega, by omega⟩]
    have hdrop : ((X ++ be32 d.length) ++ (rAWdType ++ (d ++ (be32 c ++ suffix)))).drop
        ((X ++ be32 d.length).length - 4) =
        be32 d.length ++ (rAWdType ++ (d ++ (be32 c ++ suffix))) := by
      rw [List.append_assoc]
      exact List.drop_left' (by omega)
    rw [hdrop, show (X ++ be32 d.length).length - ((X ++ be32 d.length).length - 4) = 4 by omega]
    exact congrArg some (List.take_left' (be32_length _))
  have e2 : readBE32 (be32 d.length) = d.length := readBE32_be32 hd
  have hnr1 : ¬ ((X ++ be32 d.length) ++ (rAWdType ++ (d ++ (be32 c ++ suffix)))).length <
      (X ++ be32 d.length).length + 4 + d.length := by omega
  have e3 : goSlice ((X ++ be32 d.length) ++ (rAWdType ++ (d ++ (be32 c ++ suffix))))
      ((X ++ be32 d.length).length + 4) ((X ++ be32 d.length).length + 4 + d.length) = some d := by
    unfold goSlice
    rw [if_pos ⟨by omega, by omega⟩]
    have hdrop : ((X ++ be32 d.length) ++ (rAWdType ++ (d ++ (be32 c ++ suffix)))).drop
        ((X ++ be32 d.length).length + 4) = d ++ (be32 c ++ suffix) := by
      rw [show (X ++ be32 d.length) ++ (rAWdType ++ (d ++ (be32 c ++ suffix))) =
        ((X ++ be32 d.length) ++ rAWdType) ++ (d ++ (be32 c ++ suffix)) by
          simp [List.append_assoc]]
      exact List.drop_left'
        (by simp only [List.length_append, show rAWdType.length = 4 from rfl])
    rw [hdrop, show (X ++ be32 d.length).length + 4 + d.length -
      ((X ++ be32 d.length).length + 4) = d.length by omega]
    exact congrArg some (List.take_left' rfl)
  have hnr2 : ¬ ((X ++ be32 d.length) ++ (rAWdType ++ (d ++ (be32 c ++ suffix)))).length <
      (X ++ be32 d.length).length + 4 + d.length + 4 := by omega
  have e4 : goSlice ((X ++ be32 d.length) ++ (rAWdType ++ (d ++ (be32 c ++ suffix))))
      ((X ++ be32 d.length).length + 4 + d.length)
      ((X ++ be32 d.length).length + 4 + d.length + 4) = some (be32 c) := by
    unfold goSlice
    rw [if_pos ⟨by omega, by omega⟩]
    have hdrop : ((X ++ be32 d.length) ++ (rAWdType ++ (d ++ (be32 c ++ suffix)))).drop
        ((X ++ be32 d.length).length + 4 + d.length) = be32 c ++ suffix := by
      rw [show (X ++ be32 d.length) ++ (rAWdType ++ (d ++ (be32 c ++ suffix))) =
        (((X ++ be32 d.length) ++ rAWdType) ++ d) ++ (be32 c ++ suffix) by
          simp [List.append_assoc]]
      exact List.drop_left'
        (by simp only [List.length_append, show rAWdType.length = 4 from rfl])
    rw [hdrop, show (X ++ be32 d.length).length + 4 + d.length + 4 -
      ((X ++ be32 d.length).length + 4 + d.length) = 4 by omega]
    exact congrArg some (List.take_left' (be32_length _))
  have e5 : readBE32 (be32 c) = c := readBE32_be32 hc
  unfold ExtractDataFromPNG
  simp only [hidx]
  rw [if_neg h4]
  simp only [e1, e2]
  rw [if_neg hnr1]
  simp only [e3]
  rw [if_neg hnr2]
  simp only [e4, e5]

/-! ## Pad scheme encode/decode (pkg/pad, Go source absent from the
snapshot; modelled from the spec)

Modelled from the spec, sections 3 and 4.2: `S = C(N, K-1)` pad slots,
one per `(K-1)`-subset of `{1..N}` in lexicographic order; slots
`0..S-2` carry fresh randomness, the last slot carries plaintext xor all
fresh pads; collection `i` receives exactly the slots whose subset does
not contain `i`, in increasing slot order; the stream codec splits the
plaintext into chunks of at most `chunk_size` bytes and encodes each
chunk independently; decode collects one copy of every slot from any
reader that holds it, xors all `S` slot pads into the chunk plaintext,
and requires all readers to reach the end at the same chunk boundary. -/

/-- Byte-wise xor of two byte strings (pointwise, truncating to the
shorter operand like a pad application). -/
def xorBytes (a b : List Nat) : List Nat := List.zipWith (· ^^^ ·) a b

/-- Xor of a list of byte strings of common length `len`. -/
def xorAll (len : Nat) (ps : List (List Nat)) : List Nat :=
  ps.foldr xorBytes (List.replicate len 0)

/-- Modelled from the spec: the size-`m` subsets of a list, in
lexicographic order of sorted member lists. -/
def combos : Nat → List Nat → List (List Nat)
  | 0, _ => [[]]
  | _ + 1, [] => []
  | m + 1, x :: xs => (combos m xs).map (x :: ·) ++ combos (m + 1) xs

/-- The slot subsets for scheme parameters (n, k): all (k-1)-subsets of
the 1-based collection indices. -/
def slotSubsets (n k : Nat) : List (List Nat) :=
  combos (k - 1) (List.range' 1 n)

/-- Modelled from the spec: the pads of one chunk — fresh pads for slots
`0..S-2` followed by the injection pad, the xor of the plaintext with all
fresh pads, in the last slot. -/
def chunkPads (plain : List Nat) (fresh : List (List Nat)) : List (List Nat) :=
  fresh ++ [xorAll plain.length (plain :: fresh)]

/-- Builds the (slot-index, pad) share entries of collection `i` from the
zipped list of slot subsets and pads, numbering slots from `j0`: a slot
is included exactly when its subset does not contain `i`. -/
def mkEntries (i : Nat) : Nat → List (List Nat × List Nat) → List (Nat × List Nat)
  | _, [] => []
  | j0, (s, p) :: rest =>
    if i ∈ s then mkEntries i (j0 + 1) rest
    else (j0, p) :: mkEntries i (j0 + 1) rest

/-- Modelled from the spec: the share of collection `i` for one chunk:
exactly the pads of the slots whose subsets do not contain `i`, keyed by
slot index, in increasing slot order. -/
def encodeChunk (n k : Nat) (fresh : List (List Nat)) (plain : List Nat) (i : Nat) :
    List (Nat × List Nat) :=
  mkEntries i 0 ((slotSubsets n k).zip (chunkPads plain fresh))

/-- Modelled from the spec: decode obtains slot `j`'s pad from the first
available reader that holds it. -/
def decodeChunkSlot (readers : List (Nat × List (Nat × List Nat))) (j : Nat) :
    Option (List Nat) :=
  (readers.filterMap (fun r => r.2.lookup j)).head?

/-- Collects `count` optional values `f j0, f (j0+1), ...`, failing when
any is missing. -/
def collectSlots (f : Nat → Option (List Nat)) : Nat → Nat → Option (List (List Nat))
  | _, 0 => some []
  | j0, m + 1 =>
    match f j0, collectSlots f (j0 + 1) m with
    | some p, some rest => some (p :: rest)
    | _, _ => none

/-- Modelled from the spec: decode of one chunk from the given readers
(each a collection index paired with its share entries): collect one copy
of every slot pad and xor all `S` of them into the chunk plaintext, whose
length is the common pad length. -/
def decodeChunk (n k : Nat) (readers : List (Nat × List (Nat × List Nat))) :
    Option (List Nat) :=
  match collectSlots (decodeChunkSlot readers) 0 (slotSubsets n k).length with
  | none => none
  | some pads => some (xorAll (pads.headD []).length pads)

/-- Fuel-driven chunk splitter; the fuel is an upper bound on the number
of chunks (one byte is consumed per chunk whenever the chunk size is
positive). -/
def chunksOfAux : Nat → Nat → List Nat → List (List Nat)
  | 0, _, _ => []
  | _, _, [] => []
  | fuel + 1, csz, b :: t => (b :: t).take csz :: chunksOfAux fuel csz ((b :: t).drop csz)

/-- Splits a byte stream into chunks of at most `csz` bytes (the stream
codec reads up to `chunk_size` bytes per chunk and stops at EOF; the last
chunk may be short; empty input yields zero chunks). -/
def chunksOf (csz : Nat) (l : List Nat) : List (List Nat) :=
  chunksOfAux l.length csz l

/-- Modelled from the spec: `Pad.Encode` at stream level for collection
`i` — the per-chunk share sequence, with `rnd c` supplying the fresh pads
of chunk `c`. -/
def padEncodeStream (n k csz : Nat) (plain : List Nat)
    (rnd : Nat → List (List Nat)) (i : Nat) : List (List (Nat × List Nat)) :=
  (chunksOf csz plain).enum.map (fun cp => encodeChunk n k (rnd cp.1) cp.2 i)

/-- Modelled from the spec: `Pad.Decode` at stream level from an ordered
list of readers (collection index, chunk-share sequence): all readers
must reach EOF at the same chunk boundary (equal chunk counts), each
chunk is decoded from the readers' entries for it, and the chunk
plaintexts are concatenated. -/
def padDecodeStream (n k : Nat)
    (readers : List (Nat × List (List (Nat × List Nat)))) : Option (List Nat) :=
  match readers with
  | [] => none
  | r0 :: rest =>
    if (r0 :: rest).all (fun r => r.2.length = r0.2.length) then
      match collectSlots
          (fun c => decodeChunk n k ((r0 :: rest).map (fun r => (r.1, r.2.getD c []))))
          0 r0.2.length with
      | none => none
      | some chunks => some chunks.join
    else none

/-! ### Xor algebra on byte strings -/

/-- Commutativity of byte-string xor. -/
theorem xorBytes_comm : ∀ a b : List Nat, xorBytes a b = xorBytes b a := by
  intro a
  induction a with
  | nil => intro b; cases b <;> simp [xorBytes]
  | cons x xs ih =>
    intro b
    cases b with
    | nil => simp [xorBytes]
    | cons y ys => simp [xorBytes, Nat.xor_comm]; simpa [xorBytes] using ih ys

/-- Associativity of byte-string xor. -/
theorem xorBytes_assoc : ∀ a b c : List Nat,
    xorBytes (xorBytes a b) c = xorBytes a (xorBytes b c) := by
  intro a
  induction a with
  | nil => intro b c; simp [xorBytes]
  | cons x xs ih =>
    intro b c
    cases b with
    | nil => simp [xorBytes]
    | cons y ys =>
      cases c with
      | nil => simp [xorBytes]
      | cons z zs =>
        simp [xorBytes, Nat.xor_assoc]
        simpa [xorBytes] using ih ys zs

/-- Left-commutation of byte-string xor. -/
theorem xorBytes_left_comm (a b c : List Nat) :
    xorBytes a (xorBytes b c) = xorBytes b (xorBytes a c) := by
  rw [← xorBytes_assoc, xorBytes_comm a b, xorBytes_assoc]

/-- Xor of a byte string with itself is all-zero. -/
theorem xorBytes_self : ∀ a : List Nat, xorBytes a a = List.replicate a.length 0 := by
  intro a
  induction a with
  | nil => rfl
  | cons x xs ih =>
    simp only [xorBytes, List.zipWith_cons_cons, Nat.xor_self, List.length_cons]
    rw [List.replicate_succ]
    simpa [xorBytes] using ih

/-- All-zero is a left identity for byte-string xor at matching length. -/
theorem xorBytes_zero_left (a : List Nat) :
    xorBytes (List.replicate a.length 0) a = a := by
  induction a with
  | nil => rfl
  | cons x xs ih =>
    simp only [List.length_cons, List.replicate_succ, xorBytes, List.zipWith_cons_cons,
      Nat.zero_xor]
    simpa [xorBytes] using ih

/-- Identity on the right for byte-string xor at matching length. -/
theorem xorBytes_zero_right (a : List Nat) (len : Nat) (h : a.length = len) :
    xorBytes a (List.replicate len 0) = a := by
  subst h
  rw [xorBytes_comm, xorBytes_zero_left]

/-- Length of an xor of byte strings of common length. -/
theorem xorAll_length (len : Nat) (ps : List (List Nat))
    (h : ∀ p ∈ ps, p.length = len) : (xorAll len ps).length = len := by
  induction ps with
  | nil => simp [xorAll]
  | cons p ps ih =>
    have hp : p.length = len := h p (by simp)
    have ihl := ih (fun q hq => h q (by simp [hq]))
    simp only [xorAll, List.foldr_cons] at ihl ⊢
    simp [xorBytes, List.length_zipWith, hp, ihl]

/-- Folding xor over byte strings with an arbitrary seed equals the xor
of the combined pads with the seed. -/
theorem foldr_xorBytes_init (len : Nat) (ps : List (List Nat)) (X : List Nat)
    (hps : ∀ p ∈ ps, p.length = len) (hX : X.length = len) :
    ps.foldr xorBytes X = xorBytes (xorAll len ps) X := by
  induction ps with
  | nil =>
    simp only [xorAll, List.foldr_nil]
    rw [← hX, xorBytes_zero_left]
  | cons p ps ih =>
    have ihl := ih (fun q hq => hps q (by simp [hq]))
    simp only [List.foldr_cons, ihl, xorAll]
    rw [← xorBytes_assoc]

/-- Every pad of a chunk has the plaintext's length when the fresh pads
do. -/
theorem chunkPads_mem_length (plain : List Nat) (fresh : List (List Nat))
    (hf : ∀ q ∈ fresh, q.length = plain.length) :
    ∀ q ∈ chunkPads plain fresh, q.length = plain.length := by
  intro q hq
  simp only [chunkPads, List.mem_append, List.mem_singleton] at hq
  rcases hq with hq | rfl
  · exact hf q hq
  · apply xorAll_length
    intro p hp
    rcases List.mem_cons.mp hp with rfl | hp'
    · rfl
    · exact hf p hp'

/-- The xor of all slot pads of a chunk reconstructs the plaintext. -/
theorem xorAll_chunkPads (plain : List Nat) (fresh : List (List Nat))
    (hf : ∀ q ∈ fresh, q.length = plain.length) :
    xorAll plain.length (chunkPads plain fresh) = plain := by
  have hQlen : (xorAll plain.length fresh).length = plain.length :=
    xorAll_length _ _ hf
  have hinjlen : (xorAll plain.length (plain :: fresh)).length = plain.length := by
    apply xorAll_length
    intro p hp
    rcases List.mem_cons.mp hp with rfl | hp'
    · rfl
    · exact hf p hp'
  have h1 : xorAll plain.length (chunkPads plain fresh) =
      fresh.foldr xorBytes (xorBytes (xorAll plain.length (plain :: fresh))
        (List.replicate plain.length 0)) := by
    simp [chunkPads, xorAll, List.foldr_append]
  have h2 : xorBytes (xorAll plain.length (plain :: fresh))
      (List.replicate plain.length 0) = xorAll plain.length (plain :: fresh) :=
    xorBytes_zero_right _ _ hinjlen
  rw [h1, h2, foldr_xorBytes_init plain.length fresh _ hf hinjlen]
  have h3 : xorAll plain.length (plain :: fresh) =
      xorBytes plain (xorAll plain.length fresh) := by
    simp [xorAll]
  rw [h3, xorBytes_left_comm, xorBytes_self, hQlen, xorBytes_comm, xorBytes_zero_left]

/-! ### Slot subsets, share lookup and slot collection -/

/-- Every enumerated subset has the requested size. -/
theorem combos_mem_length : ∀ (l : List Nat) (m : Nat), ∀ s ∈ combos m l, s.length = m := by
  intro l
  induction l with
  | nil =>
    intro m s hs
    cases m with
    | zero => simp [combos] at hs; simp [hs]
    | succ m' => simp [combos] at hs
  | cons x xs ih =>
    intro m s hs
    cases m with
    | zero => simp [combos] at hs; simp [hs]
    | succ m' =>
      simp only [combos, List.mem_append, List.mem_map] at hs
      rcases hs with ⟨t, ht, rfl⟩ | hs
      · simp [ih m' t ht]
      · exact ih (m' + 1) s hs

/-- A duplicate-free list longer than another list has an element outside
it. -/
theorem exists_not_mem_of_lt (T s : List Nat) (hT : T.Nodup)
    (hlen : s.length < T.length) : ∃ i ∈ T, i ∉ s := by
  by_contra hcon
  push_neg at hcon
  have h1 : T.toFinset.card = T.length := List.toFinset_card_of_nodup hT
  have h2 : T.toFinset ⊆ s.toFinset := by
    intro a ha
    rw [List.mem_toFinset] at ha ⊢
    exact hcon a ha
  have h3 : s.toFinset.card ≤ s.length := s.toFinset_card_le
  have h4 := Finset.card_le_card h2
  omega

/-- Share entries carry no keys below the starting slot number. -/
theorem mkEntries_lookup_lt (i : Nat) :
    ∀ (L : List (List Nat × List Nat)) (j0 j : Nat), j < j0 →
      (mkEntries i j0 L).lookup j = none := by
  intro L
  induction L with
  | nil => intro j0 j h; rfl
  | cons e rest ih =>
    intro j0 j h
    obtain ⟨s, p⟩ := e
    unfold mkEntries
    by_cases hm : i ∈ s
    · simp only [hm, if_true]
      exact ih (j0 + 1) j (by omega)
    · simp only [hm, if_false]
      have hne : (j == j0) = false := by
        simp only [beq_eq_false_iff_ne]
        omega
      simp only [List.lookup, hne]
      exact ih (j0 + 1) j (by omega)

/-- Looking a slot key up in a collection's share entries: present with
the slot's pad exactly when the collection is outside the slot's subset. -/
theorem mkEntries_lookup (i : Nat) :
    ∀ (L : List (List Nat × List Nat)) (j0 r : Nat) (hr : r < L.length),
      (mkEntries i j0 L).lookup (j0 + r) =
        if i ∈ (L.get ⟨r, hr⟩).1 then none else some (L.get ⟨r, hr⟩).2 := by
  intro L
  induction L with
  | nil => intro j0 r hr; simp at hr
  | cons e rest ih =>
    intro j0 r hr
    obtain ⟨s, p⟩ := e
    unfold mkEntries
    cases r with
    | zero =>
      by_cases hm : i ∈ s
      · simp only [hm, if_true, List.get]
        simpa using mkEntries_lookup_lt i rest (j0 + 1) (j0 + 0) (by omega)
      · simp only [hm, if_false, List.get]
        have heq : (j0 + 0 == j0) = true := by simp
        simp [List.lookup, heq]
    | succ r' =>
      have hr' : r' < rest.length := by simpa using hr
      by_cases hm : i ∈ s
      · simp only [hm, if_true, List.get]
        rw [show j0 + (r' + 1) = (j0 + 1) + r' by omega]
        exact ih (j0 + 1) r' hr'
      · simp only [hm, if_false, List.get]
        have hne : (j0 + (r' + 1) == j0) = false := by
          simp only [beq_eq_false_iff_ne]
          omega
        simp only [List.lookup, hne]
        rw [show j0 + (r' + 1) = (j0 + 1) + r' by omega]
        exact ih (j0 + 1) r' hr'

/-- Head of a filter-map whose hits all carry the same value. -/
theorem filterMap_head_eq {α β : Type} (f : α → Option β) (v : β) :
    ∀ T : List α, (∀ i ∈ T, f i = none ∨ f i = some v) →
      (∃ i ∈ T, f i ≠ none) → (T.filterMap f).head? = some v := by
  intro T
  induction T with
  | nil => intro _ hex; simp at hex
  | cons a t ih =>
    intro hall hex
    cases hfa : f a with
    | some w =>
      have hw : w = v := by
        rcases hall a (by simp) with h | h
        · rw [hfa] at h; cases h
        · rw [hfa] at h; exact Option.some.inj h
      subst hw
      simp [List.filterMap_cons, hfa]
    | none =>
      simp only [List.filterMap_cons, hfa]
      apply ih (fun i hi => hall i (by simp [hi]))
      rcases hex with ⟨i, hi, hne⟩
      rcases List.mem_cons.mp hi with rfl | hi'
      · exact absurd hfa hne
      · exact ⟨i, hi', hne⟩

/-- Collecting values that are all present yields the underlying list. -/
theorem collectSlots_eq (f : Nat → Option (List Nat)) :
    ∀ (L : List (List Nat)) (j0 : Nat),
      (∀ r (hr : r < L.length), f (j0 + r) = some (L.get ⟨r, hr⟩)) →
      collectSlots f j0 L.length = some L := by
  intro L
  induction L with
  | nil => intro j0 _; rfl
  | cons p rest ih =>
    intro j0 hall
    have h0 : f j0 = some p := by simpa using hall 0 (by simp)
    have hrest : ∀ r (hr : r < rest.length), f ((j0 + 1) + r) =
        some (rest.get ⟨r, hr⟩) := by
      intro r hr
      have := hall (r + 1) (by simpa using hr)
      rw [show j0 + (r + 1) = (j0 + 1) + r by omega] at this
      simpa [List.get] using this
    simp only [List.length_cons, collectSlots, h0, ih (j0 + 1) hrest]

/-- Slot lookup in a collection's chunk share: the slot's pad exactly
when the collection lies outside the slot's subset. -/
theorem encodeChunk_lookup (n k : Nat) (fresh : List (List Nat)) (plain : List Nat)
    (i j : Nat)
    (hfresh : fresh.length + 1 = (slotSubsets n k).length)
    (hj : j < (slotSubsets n k).length)
    (hjp : j < (chunkPads plain fresh).length) :
    (encodeChunk n k fresh plain i).lookup j =
      (if i ∈ (slotSubsets n k).get ⟨j, hj⟩ then none
       else some ((chunkPads plain fresh).get ⟨j, hjp⟩)) := by
  have hplen : (chunkPads plain fresh).length = (slotSubsets n k).length := by
    simp only [chunkPads, List.length_append, List.length_singleton]
    omega
  have hjz : j < ((slotSubsets n k).zip (chunkPads plain fresh)).length := by
    simp only [List.length_zip]
    omega
  have hlk := mkEntries_lookup i ((slotSubsets n k).zip (chunkPads plain fresh)) 0 j hjz
  simp only [Nat.zero_add] at hlk
  unfold encodeChunk
  rw [hlk]
  have hget : ((slotSubsets n k).zip (chunkPads plain fresh)).get ⟨j, hjz⟩ =
      ((slotSubsets n k).get ⟨j, hj⟩, (chunkPads plain fresh).get ⟨j, hjp⟩) := by
    simp [List.get_eq_getElem, List.getElem_zip]
  rw [hget]

/-- Decoding one slot from the shares of the readers in `T`: any reader
outside the slot's subset supplies the slot's pad. -/
theorem decodeChunkSlot_eq (n k : Nat) (fresh : List (List Nat)) (plain : List Nat)
    (T : List Nat) (j : Nat)
    (hfresh : fresh.length + 1 = (slotSubsets n k).length)
    (hj : j < (slotSubsets n k).length)
    (hjp : j < (chunkPads plain fresh).length)
    (hcover : ∃ i ∈ T, i ∉ (slotSubsets n k).get ⟨j, hj⟩) :
    decodeChunkSlot (T.map (fun i => (i, encodeChunk n k fresh plain i))) j =
      some ((chunkPads plain fresh).get ⟨j, hjp⟩) := by
  unfold decodeChunkSlot
  rw [List.filterMap_map]
  apply filterMap_head_eq
  · intro i _
    simp only [Function.comp]
    rw [encodeChunk_lookup n k fresh plain i j hfresh hj hjp]
    by_cases hm : i ∈ (slotSubsets n k).get ⟨j, hj⟩
    · simp only [List.get_eq_getElem] at hm
      left; simp [hm]
    · simp only [List.get_eq_getElem] at hm
      right; simp [hm]
  · rcases hcover with ⟨i, hiT, hnm⟩
    refine ⟨i, hiT, ?_⟩
    simp only [Function.comp]
    rw [encodeChunk_lookup n k fresh plain i j hfresh hj hjp]
    simp only [List.get_eq_getElem] at hnm
    simp [hnm]

/-- Decoding one chunk from the shares of any duplicate-free reader set
of size `k` recovers the chunk plaintext. -/
theorem decodeChunk_eq (n k : Nat) (fresh : List (List Nat)) (plain : List Nat)
    (T : List Nat)
    (hfresh : fresh.length + 1 = (slotSubsets n k).length)
    (hfl : ∀ q ∈ fresh, q.length = plain.length)
    (hT : T.Nodup) (hTlen : T.length = k) (hk : k - 1 < k) :
    decodeChunk n k (T.map (fun i => (i, encodeChunk n k fresh plain i))) =
      some plain := by
  have hplen : (chunkPads plain fresh).length = (slotSubsets n k).length := by
    simp only [chunkPads, List.length_append, List.length_singleton]
    omega
  have hcollect : collectSlots
      (decodeChunkSlot (T.map (fun i => (i, encodeChunk n k fresh plain i)))) 0
      (chunkPads plain fresh).length = some (chunkPads plain fresh) := by
    apply collectSlots_eq
    intro r hr
    have hj : r < (slotSubsets n k).length := by omega
    have hcover : ∃ i ∈ T, i ∉ (slotSubsets n k).get ⟨r, hj⟩ := by
      apply exists_not_mem_of_lt T _ hT
      have hslen : ((slotSubsets n k).get ⟨r, hj⟩).length = k - 1 :=
        combos_mem_length (List.range' 1 n) (k - 1) _ (List.get_mem (slotSubsets n k) r hj)
      omega
    simpa using decodeChunkSlot_eq n k fresh plain T r hfresh hj hr hcover
  unfold decodeChunk
  rw [← hplen, hcollect]
  simp only []
  have hnil : chunkPads plain fresh ≠ [] := by
    simp [chunkPads]
  have hhead : (chunkPads plain fresh).headD [] ∈ chunkPads plain fresh := by
    cases hcp : chunkPads plain fresh with
    | nil => exact absurd hcp hnil
    | cons q qs => simp
  have hheadlen : ((chunkPads plain fresh).headD []).length = plain.length :=
    chunkPads_mem_length plain fresh hfl _ hhead
  show some (xorAll ((chunkPads plain fresh).headD []).length (chunkPads plain fresh)) =
    some plain
  rw [hheadlen, xorAll_chunkPads plain fresh hfl]

/-- Length of a collection's encoded chunk-share stream equals the chunk
count; all collections emit the same number of chunk shares. -/
theorem padEncodeStream_length (n k csz : Nat) (plain : List Nat)
    (rnd : Nat → List (List Nat)) (i : Nat) :
    (padEncodeStream n k csz plain rnd i).length = (chunksOf csz plain).length := by
  simp [padEncodeStream]

/-- The chunk-`c` share of a collection's encoded stream. -/
theorem padEncodeStream_getD (n k csz : Nat) (plain : List Nat)
    (rnd : Nat → List (List Nat)) (i c : Nat) (hc : c < (chunksOf csz plain).length) :
    (padEncodeStream n k csz plain rnd i).getD c [] =
      encodeChunk n k (rnd c) ((chunksOf csz plain).get ⟨c, hc⟩) i := by
  unfold padEncodeStream
  rw [List.getD_eq_getElem?_getD,
    List.getElem?_eq_getElem (by simpa using hc)]
  simp [List.getElem_map, List.getElem_enum]

/-- Concatenating the fuel-split chunks recovers the stream. -/
theorem chunksOfAux_join : ∀ (fuel csz : Nat) (l : List Nat), 0 < csz →
    l.length ≤ fuel → (chunksOfAux fuel csz l).join = l := by
  intro fuel
  induction fuel with
  | zero =>
    intro csz l _ hlen
    have : l = [] := by
      cases l with
      | nil => rfl
      | cons b t => simp at hlen
    subst this
    rfl
  | succ fuel ih =>
    intro csz l hcsz hlen
    cases l with
    | nil => rfl
    | cons b t =>
      simp only [chunksOfAux, List.join_cons]
      rw [show (chunksOfAux fuel csz ((b :: t).drop csz)).flatten = (b :: t).drop csz from
        ih csz ((b :: t).drop csz) hcsz
          (by simp only [List.length_drop, List.length_cons] at hlen ⊢; omega)]
      exact List.take_append_drop csz (b :: t)

/-- Concatenating the chunks recovers the stream. -/
theorem chunksOf_join (csz : Nat) (hcsz : 0 < csz) (l : List Nat) :
    (chunksOf csz l).join = l :=
  chunksOfAux_join l.length csz l hcsz (Nat.le_refl _)

/-! ### Theorems -/

/-- Claim C2: `NewPadForEncode` rejects exactly the parameter pairs with
`N<2`, `N>26`, `K<2`, or `K>N` (covering the four pairs named in the
claim), and on every valid pair `2 ≤ K ≤ N ≤ 26` returns a pad whose
collections list has length exactly N. -/
theorem newPadForEncode_params (n k : Nat) :
    (match NewPadForEncode n k with
     | .error _ => n < 2 ∨ 26 < n ∨ k < 2 ∨ n < k
     | .ok p => 2 ≤ k ∧ k ≤ n ∧ n ≤ 26 ∧ p.collections.length = n) := by
  unfold NewPadForEncode
  by_cases h : n < 2 ∨ 26 < n ∨ k < 2 ∨ n < k
  · simp [h]
  · simp only [h, if_false]
    push_neg at h
    refine ⟨h.2.2.1, h.2.2.2, h.2.1, ?_⟩
    simp [List.length_map, List.length_range']

/-- Helper: the relaxed tail matcher agrees with the positional reading
used by the Go code, which indexes the character right after the maximal
leading digit run. -/
theorem regexTailRelaxed_eq (t : List Nat) :
    regexTailRelaxed t =
      (match t.get? (t.takeWhile isDigitB).length with
       | none => false
       | some c =>
         isLetterB c && (t.drop ((t.takeWhile isDigitB).length + 1)).all isDigitB) := by
  induction t with
  | nil => simp [regexTailRelaxed]
  | cons b r ih =>
    by_cases hb : isDigitB b
    · simpa [regexTailRelaxed, hb, List.takeWhile_cons] using ih
    · simp [regexTailRelaxed, hb, List.takeWhile_cons]

/-- Claim C3, amended: `IsCollectionName name` is true iff `name` has
length at least 3 and matches the relaxed anchored pattern
`(\d+)([A-Za-z])(\d*)` — i.e. the trailing digit run may be empty. -/
theorem isCollectionName_iff_relaxed (name : List Nat) :
    IsCollectionName name = true ↔
      3 ≤ name.length ∧ labelRelaxedMatch name = true := by
  unfold IsCollectionName
  by_cases hlen : name.length < 3
  · simp only [hlen, if_true]
    constructor
    · intro h; exact absurd h (by simp)
    · intro h; omega
  · simp only [hlen, if_false]
    have hlen' : 3 ≤ name.length := Nat.le_of_not_lt hlen
    cases name with
    | nil => simp at hlen'
    | cons b t =>
      by_cases hb : isDigitB b
      · simp only [labelRelaxedMatch, hb, Bool.true_and, List.takeWhile_cons, hb,
          if_true, List.length_cons, regexTailRelaxed_eq t]
        have h2 : 2 ≤ t.length := by
          simp only [List.length_cons] at hlen'; omega
        simp [h2, List.get?_cons_succ, List.drop_succ_cons]
      · simp [labelRelaxedMatch, hb, List.takeWhile_cons]

/-- Claim C6: the decompression dispatch selects gzip exactly when the
first two bytes of the stream are `0x1f 0x8b` (hence never for streams of
fewer than two bytes), and in every other case the returned reader yields
the original input bytes unchanged. -/
theorem decompress_gzip_iff_magic (input : List Nat) :
    DecompressStreamToStream input =
      (if input.take 2 = [0x1f, 0x8b] then StreamChoice.gzipStream input
       else StreamChoice.passthrough input) := by
  match input with
  | [] => simp [DecompressStreamToStream]
  | [b] => simp [DecompressStreamToStream]
  | b0 :: b1 :: rest =>
    by_cases h : b0 = 0x1f ∧ b1 = 0x8b
    · simp [DecompressStreamToStream, h]
    · have h' : ¬ ([b0, b1] = [(0x1f : Nat), 0x8b]) := by
        intro hc; apply h
        simp only [List.cons.injEq] at hc
        exact ⟨hc.1, hc.2.1⟩
      simp [DecompressStreamToStream, h, List.take_succ_cons, h']

/-- Claim C4: for every payload `data` (of 32-bit-representable length)
and every carrier PNG accepted by the encoder's own checks whose prefix
does not already contain the bytes rAWd, `encodePNGWithData` produces
exactly the layout prefix, [len:u32 BE], type rAWd, payload,
[crc32:u32 BE] over type plus payload, IEND tail — and
`ExtractDataFromPNG` recovers exactly the payload from that output. -/
theorem png_roundtrip (pngBytes data : List Nat) (ipos : Nat)
    (hsize : ¬ pngBytes.length < 12)
    (hidx : indexOfSub iendType pngBytes = some ipos)
    (hipos : ¬ ipos < 4)
    (hdlen : data.length < 2 ^ 32)
    (hno : occursB rAWdType ((pngBytes.take (ipos - 4) ++ be32 data.length) ++
      rAWdType.dropLast) = false) :
    encodePNGWithData pngBytes data =
      .ok ((pngBytes.take (ipos - 4) ++ be32 data.length) ++
        (rAWdType ++ (data ++ (be32 (crc32 (rAWdType ++ data)) ++
          pngBytes.drop (ipos - 4))))) ∧
    ExtractDataFromPNG ((pngBytes.take (ipos - 4) ++ be32 data.length) ++
        (rAWdType ++ (data ++ (be32 (crc32 (rAWdType ++ data)) ++
          pngBytes.drop (ipos - 4))))) = .ok data := by
  constructor
  · unfold encodePNGWithData
    rw [if_neg hsize]
    simp only [hidx]
    rw [if_neg hipos]
    simp [List.append_assoc]
  · rw [extract_framed (pngBytes.take (ipos - 4)) data (pngBytes.drop (ipos - 4))
      (crc32 (rAWdType ++ data)) hno hdlen (crc32_lt _)]
    simp

/-- Carrier bytes for the PNG witnesses: four filler bytes, IEND at
offset 4, four trailing bytes; accepted by the encoder's checks. -/
def pngW : List Nat := [48, 49, 50, 51] ++ iendType ++ [1, 2, 3, 4]

/-- Claim C4, witness: encoding the one-byte payload 7 into the concrete
carrier and extracting it back yields exactly that payload. -/
theorem png_roundtrip_witness :
    encodePNGWithData pngW [7] =
      .ok ((pngW.take (4 - 4) ++ be32 [7].length) ++
        (rAWdType ++ ([7] ++ (be32 (crc32 (rAWdType ++ [7])) ++ pngW.drop (4 - 4))))) ∧
    ExtractDataFromPNG ((pngW.take (4 - 4) ++ be32 [7].length) ++
        (rAWdType ++ ([7] ++ (be32 (crc32 (rAWdType ++ [7])) ++ pngW.drop (4 - 4))))) =
      .ok [7] :=
  png_roundtrip pngW [7] 4 (by decide) (by decide) (by decide) (by decide) (by decide)

/-- Claim C5: flipping any single bit of the embedded payload bytes of a
PNG produced by `encodePNGWithData` (leaving the stored CRC, computed
over the original payload, in place) makes `ExtractDataFromPNG` fail with
a CRC mismatch. -/
theorem png_bitflip_rejected (pngBytes data : List Nat) (ipos i k : Nat)
    (hsize : ¬ pngBytes.length < 12)
    (hidx : indexOfSub iendType pngBytes = some ipos)
    (hipos : ¬ ipos < 4)
    (hdlen : data.length < 2 ^ 32)
    (hno : occursB rAWdType ((pngBytes.take (ipos - 4) ++ be32 data.length) ++
      rAWdType.dropLast) = false)
    (hi : i < data.length) (hk : k < 8) :
    ExtractDataFromPNG ((pngBytes.take (ipos - 4) ++ be32 data.length) ++
        (rAWdType ++ (data.set i (data.getD i 0 ^^^ 2 ^ k) ++
          (be32 (crc32 (rAWdType ++ data)) ++ pngBytes.drop (ipos - 4))))) =
      .error .crcMismatch := by
  have hlen' : (data.set i (data.getD i 0 ^^^ 2 ^ k)).length = data.length := by simp
  have hgetD : data.getD i 0 = data[i] := by
    simp [List.getD_eq_getElem?_getD, List.getElem?_eq_getElem hi]
  have horig : data.take i ++ data.getD i 0 :: data.drop (i + 1) = data := by
    rw [hgetD, List.getElem_cons_drop, List.take_append_drop]
  have hset : data.set i (data.getD i 0 ^^^ 2 ^ k) =
      data.take i ++ (data.getD i 0 ^^^ 2 ^ k) :: data.drop (i + 1) :=
    List.set_eq_take_cons_drop _ hi
  have hsplit1 : rAWdType ++ data.set i (data.getD i 0 ^^^ 2 ^ k) =
      (rAWdType ++ data.take i) ++ (data.getD i 0 ^^^ 2 ^ k) :: data.drop (i + 1) := by
    rw [hset, List.append_assoc]
  have hsplit2 : rAWdType ++ data =
      (rAWdType ++ data.take i) ++ data.getD i 0 :: data.drop (i + 1) := by
    rw [List.append_assoc, horig]
  have hne : crc32 (rAWdType ++ data.set i (data.getD i 0 ^^^ 2 ^ k)) ≠
      crc32 (rAWdType ++ data) := by
    rw [hsplit1, hsplit2]
    exact crc32_flip_ne (rAWdType ++ data.take i) (data.drop (i + 1))
      (data.getD i 0) k hk
  have hno' : occursB rAWdType ((pngBytes.take (ipos - 4) ++
      be32 (data.set i (data.getD i 0 ^^^ 2 ^ k)).length) ++ rAWdType.dropLast) = false := by
    rw [hlen']
    exact hno
  have hd' : (data.set i (data.getD i 0 ^^^ 2 ^ k)).length < 2 ^ 32 := by
    rw [hlen']
    exact hdlen
  have hmain := extract_framed (pngBytes.take (ipos - 4))
    (data.set i (data.getD i 0 ^^^ 2 ^ k)) (pngBytes.drop (ipos - 4))
    (crc32 (rAWdType ++ data)) hno' hd' (crc32_lt _)
  rw [if_neg hne] at hmain
  rw [show be32 data.length =
    be32 (data.set i (data.getD i 0 ^^^ 2 ^ k)).length by rw [hlen']]
  exact hmain

/-- Claim C5, witness: flipping bit 0 of the single payload byte 7 of the
concrete encoded carrier is rejected with a CRC mismatch. -/
theorem png_bitflip_rejected_witness :
    ExtractDataFromPNG ((pngW.take (4 - 4) ++ be32 [7].length) ++
        (rAWdType ++ ([7].set 0 ([7].getD 0 0 ^^^ 2 ^ 0) ++
          (be32 (crc32 (rAWdType ++ [7])) ++ pngW.drop (4 - 4))))) =
      .error .crcMismatch :=
  png_bitflip_rejected pngW [7] 4 0 0 (by decide) (by decide) (by decide)
    (by decide) (by decide) (by decide) (by decide)

/-- Claim C10: `ExtractDataFromPNG` is total and never performs an
out-of-range slice access on any input: every slice it takes — the length
prefix, the payload range and the CRC range — is guarded, so the
slice-panic outcome is unreachable. -/
theorem extract_no_panic (all : List Nat) :
    ExtractDataFromPNG all ≠ .error .sliceOutOfRange := by
  cases hidx : indexOfSub rAWdType all with
  | none =>
    unfold ExtractDataFromPNG
    simp [hidx]
  | some chunkPos =>
    have hbound := indexOfSub_bound rAWdType all chunkPos hidx
    have hb4 : chunkPos + 4 ≤ all.length := by
      simpa [show rAWdType.length = 4 from rfl] using hbound
    unfold ExtractDataFromPNG
    simp only [hidx]
    by_cases h4 : chunkPos < 4
    · simp [h4]
    · rw [if_neg h4]
      have e1 : goSlice all (chunkPos - 4) chunkPos =
          some ((all.drop (chunkPos - 4)).take (chunkPos - (chunkPos - 4))) := by
        unfold goSlice
        rw [if_pos ⟨by omega, by omega⟩]
      simp only [e1]
      by_cases hr1 : all.length < chunkPos + 4 +
          readBE32 ((all.drop (chunkPos - 4)).take (chunkPos - (chunkPos - 4)))
      · simp [hr1]
      · rw [if_neg hr1]
        have e2 : goSlice all (chunkPos + 4) (chunkPos + 4 +
            readBE32 ((all.drop (chunkPos - 4)).take (chunkPos - (chunkPos - 4)))) =
            some ((all.drop (chunkPos + 4)).take (chunkPos + 4 +
              readBE32 ((all.drop (chunkPos - 4)).take (chunkPos - (chunkPos - 4))) -
              (chunkPos + 4))) := by
          unfold goSlice
          rw [if_pos ⟨by omega, by omega⟩]
        simp only [e2]
        by_cases hr2 : all.length < chunkPos + 4 +
            readBE32 ((all.drop (chunkPos - 4)).take (chunkPos - (chunkPos - 4))) + 4
        · simp [hr2]
        · rw [if_neg hr2]
          have e3 : goSlice all (chunkPos + 4 +
              readBE32 ((all.drop (chunkPos - 4)).take (chunkPos - (chunkPos - 4))))
              (chunkPos + 4 +
                readBE32 ((all.drop (chunkPos - 4)).take (chunkPos - (chunkPos - 4))) + 4) =
              some ((all.drop (chunkPos + 4 +
                readBE32 ((all.drop (chunkPos - 4)).take (chunkPos - (chunkPos - 4))))).take 4) := by
            unfold goSlice
            rw [if_pos ⟨by omega, by omega⟩,
              show chunkPos + 4 +
                readBE32 ((all.drop (chunkPos - 4)).take (chunkPos - (chunkPos - 4))) + 4 -
                (chunkPos + 4 +
                  readBE32 ((all.drop (chunkPos - 4)).take (chunkPos - (chunkPos - 4)))) = 4
                by omega]
          simp only [e3]
          split <;> simp

/-- Claim C1: for every scheme (N, K) with 2 ≤ K ≤ N ≤ 26, every chunk
size, every plaintext of length up to 4 MiB and every randomness source
supplying S-1 fresh pads of the chunk's length per chunk, encoding into N
collections and decoding from ANY duplicate-free K-subset of the 1-based
collection indices yields exactly the original plaintext. -/
theorem pad_stream_roundtrip (n k csz : Nat) (plain : List Nat)
    (rnd : Nat → List (List Nat)) (T : List Nat)
    (hk2 : 2 ≤ k) (hkn : k ≤ n) (hn26 : n ≤ 26) (hcsz : 0 < csz)
    (hplen : plain.length ≤ 4 * 1024 * 1024)
    (hT : T.Nodup) (hTlen : T.length = k)
    (hTrange : ∀ i ∈ T, 1 ≤ i ∧ i ≤ n)
    (hrnd : ∀ c, c < (chunksOf csz plain).length →
      (rnd c).length + 1 = (slotSubsets n k).length ∧
      ∀ q ∈ rnd c, q.length = ((chunksOf csz plain).getD c []).length) :
    padDecodeStream n k (T.map (fun i => (i, padEncodeStream n k csz plain rnd i))) =
      some plain := by
  obtain ⟨t0, T', rfl⟩ : ∃ t0 T', T = t0 :: T' := by
    cases T with
    | nil => simp at hTlen; omega
    | cons a b => exact ⟨a, b, rfl⟩
  simp only [List.map_cons]
  simp only [padDecodeStream]
  rw [if_pos]
  · have hlen0 : (padEncodeStream n k csz plain rnd t0).length =
        (chunksOf csz plain).length := padEncodeStream_length n k csz plain rnd t0
    have hcollect : collectSlots
        (fun c => decodeChunk n k
          (((t0, padEncodeStream n k csz plain rnd t0) ::
            T'.map (fun i => (i, padEncodeStream n k csz plain rnd i))).map
            (fun r => (r.1, r.2.getD c []))))
        0 (chunksOf csz plain).length = some (chunksOf csz plain) := by
      apply collectSlots_eq
      intro c hc
      simp only [Nat.zero_add]
      have hmap : ((t0, padEncodeStream n k csz plain rnd t0) ::
          T'.map (fun i => (i, padEncodeStream n k csz plain rnd i))).map
            (fun r => (r.1, r.2.getD c [])) =
          (t0 :: T').map (fun i => (i, encodeChunk n k (rnd c)
            ((chunksOf csz plain).get ⟨c, hc⟩) i)) := by
        have hfun : (fun i => (i, (padEncodeStream n k csz plain rnd i).getD c [])) =
            (fun i => (i, encodeChunk n k (rnd c)
              ((chunksOf csz plain).get ⟨c, hc⟩) i)) := by
          funext i
          rw [padEncodeStream_getD n k csz plain rnd i c hc]
        rw [← hfun]
        simp [List.map_map, Function.comp]
      rw [hmap]
      have hrc := hrnd c hc
      have hgetD : (chunksOf csz plain).getD c [] =
          (chunksOf csz plain).get ⟨c, hc⟩ := by
        rw [List.getD_eq_getElem?_getD, List.getElem?_eq_getElem hc]
        simp
      apply decodeChunk_eq n k (rnd c) ((chunksOf csz plain).get ⟨c, hc⟩) (t0 :: T')
        hrc.1
      · intro q hq
        rw [← hgetD]
        exact hrc.2 q hq
      · exact hT
      · exact hTlen
      · omega
    rw [hlen0, hcollect]
    show some (chunksOf csz plain).join = some plain
    rw [chunksOf_join csz hcsz plain]
  · rw [List.all_eq_true]
    intro r hr
    rcases List.mem_cons.mp hr with rfl | hr'
    · simp
    · obtain ⟨i, _, rfl⟩ := List.mem_map.mp hr'
      simp [padEncodeStream_length]

/-- Claim C1, witness: a 2-of-2 scheme over the three-byte plaintext
1,2,3 with chunk size 2 (two chunks, the second short) decodes from the
subset of both collections back to the plaintext. -/
theorem pad_stream_roundtrip_witness :
    padDecodeStream 2 2 ([1, 2].map (fun i => (i, padEncodeStream 2 2 2 [1, 2, 3]
      (fun c => if c = 0 then [[7, 9]] else [[5]]) i))) = some [1, 2, 3] := by
  have h := pad_stream_roundtrip 2 2 2 [1, 2, 3]
    (fun c => if c = 0 then [[7, 9]] else [[5]]) [1, 2]
    (by decide) (by decide) (by decide) (by decide) (by decide)
    (by decide) (by decide) (by decide) (by decide)
  exact h

/-- Claim C9: the list returned by `FindCollections` is a permutation of
the gathered collections that is sorted in ascending Go-lexicographic
order of collection name (`collLe a b` says `b.Name < a.Name` is false,
i.e. `a.Name ≤ b.Name`); since the function is deterministic in its
input, the ordering of decode readers is deterministic as well. -/
theorem findCollectionsSort_sorted (gathered : List Collection) :
    List.Sorted collLe (findCollectionsSort gathered) ∧
      List.Perm (findCollectionsSort gathered) gathered :=
  ⟨List.sorted_insertionSort collLe gathered, List.perm_insertionSort collLe gathered⟩

/-- Claim C7: for every walk of the input directory in which each visited
object is the input directory itself or lies strictly below it, the tar
stream contains exactly one entry per visited file and directory other
than symlinks and the input directory itself, each named by its path
relative to the input directory (in particular the input directory is
never emitted and symlinks are skipped entirely). -/
theorem serializeDirectory_entries (inputDir : List Nat) (walk : List WalkEntry)
    (H : ∀ e ∈ walk, e.path = inputDir ∨
      (inputDir ++ [sepByte]).isPrefixOf e.path = true) :
    SerializeDirectoryToStream inputDir walk = some (specTarEntries inputDir walk) := by
  induction walk with
  | nil => rfl
  | cons e rest ih =>
    have He : e.path = inputDir ∨ (inputDir ++ [sepByte]).isPrefixOf e.path = true :=
      H e (by simp)
    have Hrest : ∀ x ∈ rest, x.path = inputDir ∨
        (inputDir ++ [sepByte]).isPrefixOf x.path = true :=
      fun x hx => H x (List.mem_cons_of_mem e hx)
    by_cases hroot : e.path = inputDir
    · simp [SerializeDirectoryToStream, specTarEntries, hroot, ih Hrest]
    · by_cases hsym : e.isSymlink
      · simp [SerializeDirectoryToStream, specTarEntries, hroot, hsym, ih Hrest]
      · have hpre : (inputDir ++ [sepByte]).isPrefixOf e.path = true :=
          He.resolve_left hroot
        simp [SerializeDirectoryToStream, specTarEntries, hroot, hsym, goRel, hpre,
          ih Hrest]

/-- Claim C7, witness: a four-object walk (the root, a subdirectory, a
symlink, and a file) of an input directory named by the single byte 100
serialises to exactly the two relative-path entries. -/
theorem serializeDirectory_entries_witness :
    SerializeDirectoryToStream [100]
        [⟨[100], true, false⟩, ⟨[100, 47, 97], true, false⟩,
         ⟨[100, 47, 98], false, true⟩, ⟨[100, 47, 97, 47, 99], false, false⟩] =
      some [⟨[97], true⟩, ⟨[97, 47, 99], false⟩] := by
  rw [serializeDirectory_entries [100] _ (by decide)]
  decide

/-- Claim C8: with the dry-run flag set, `EncodeDirectory` performs no
filesystem-mutating operation — output-directory preparation, collection
creation, TAR finalisation, directory removal, archiving and the
verification pass are all skipped — and every chunk writer the factory
hands to the encoder is a size-tracking writer, for every configuration,
collections list and requested collection name. -/
theorem encodeDirectory_dryRun (cfg : EncodeConfig) (collections : List Collection)
    (collectionName : List Nat) :
    encodeDirectoryEffects { cfg with sizeOnly := true } collections = [] ∧
      newChunkFunc { cfg with sizeOnly := true } collections collectionName =
        .ok .sizeTracking := by
  constructor
  · simp [encodeDirectoryEffects]
  · simp [newChunkFunc]

/-- Claim C3, counterexample: the name 12A (two leading digits, a letter,
and NO trailing digit) is accepted by `IsCollectionName` but does not
match the spec's pattern `^(\d+)([A-Za-z])(\d+)$`, refuting the claimed
equivalence.  (`firstDigitIndex` in the Go code is the index of the LAST
leading digit, so the trailing-digit loop may be empty.) -/
theorem isCollectionName_neq_regex :
    ¬ (IsCollectionName name12A = true ↔ labelRegexMatch name12A = true) := by
  decide

end Padlock
